import Mathlib

/-!
# Verification of the streamlit-apps fiber-mat / comb-electrode generators

Shallow embedding of `src/lib/nanomesh.py` (random fiber sampler, mesh
assembly) and `src/pages/comb_dxf.py` (interdigitated comb outline builder),
together with proofs of the specified properties.

Real-valued code (trigonometry, rejection sampling) is embedded over `ℝ`;
the comb builder, which only uses field arithmetic, is embedded over `ℚ`
so that everything is computable and decidable.  The pseudorandom generator
is modelled as an explicit state machine: a state type `S` with a step
function for raw uniform draws (in `[0,1)`) and raw standard-normal draws;
`rng.uniform(a, b)` is `a + (b-a)*u` applied to a raw draw `u`, matching
numpy's `Generator.uniform`.
-/

/-- 3-vectors, modelling numpy arrays of shape (3,). -/
abbrev V3 : Type := ℝ × ℝ × ℝ

/-- `L_min` from nanomesh.py: lower bound of the fiber length distribution. -/
def L_min : ℝ := 5.0

/-- `L_max` from nanomesh.py: upper bound of the fiber length distribution. -/
def L_max : ℝ := 15.0

/-- `tilt_std_deg` from nanomesh.py: tilt standard deviation in degrees. -/
def tilt_std_deg : ℝ := 1.0

/-- `tilt_clip_deg = tilt_std_deg * 3` from nanomesh.py. -/
def tilt_clip_deg : ℝ := tilt_std_deg * 3

/-- The retry budget of the center rejection loop (`for _ in range(2000)`). -/
def n_attempts : ℕ := 2000

/-- `np.deg2rad`: degrees to radians. -/
noncomputable def deg2rad (x : ℝ) : ℝ := x * (Real.pi / 180)

/-- `np.clip(x, lo, hi)` on scalars. -/
noncomputable def npClip (x lo hi : ℝ) : ℝ := min hi (max lo x)

/-- numpy `Generator.uniform(lo, hi)` given the raw draw `u ∈ [0,1)`:
the sample is `lo + (hi - lo) * u`. -/
def uniformOn (lo hi u : ℝ) : ℝ := lo + (hi - lo) * u

/-- Componentwise sum of 3-vectors. -/
def addV3 (a b : V3) : V3 := (a.1 + b.1, a.2.1 + b.2.1, a.2.2 + b.2.2)

/-- Componentwise difference of 3-vectors. -/
def subV3 (a b : V3) : V3 := (a.1 - b.1, a.2.1 - b.2.1, a.2.2 - b.2.2)

/-- Scalar multiple of a 3-vector. -/
def scaleV3 (r : ℝ) (a : V3) : V3 := (r * a.1, r * a.2.1, r * a.2.2)

/-- `np.dot` on 3-vectors. -/
def dotV3 (a b : V3) : ℝ := a.1 * b.1 + a.2.1 * b.2.1 + a.2.2 * b.2.2

/-- `np.cross` on 3-vectors. -/
def crossV3 (a b : V3) : V3 :=
  (a.2.1 * b.2.2 - a.2.2 * b.2.1,
   a.2.2 * b.1 - a.1 * b.2.2,
   a.1 * b.2.1 - a.2.1 * b.1)

/-- `np.linalg.norm` on 3-vectors. -/
noncomputable def normV3 (a : V3) : ℝ := Real.sqrt (a.1 ^ 2 + a.2.1 ^ 2 + a.2.2 ^ 2)

/-- The vertical axis `z = np.array([0.0, 0.0, 1.0])`. -/
def zAxis : V3 := (0.0, 0.0, 1.0)

/-- `dir_xy = np.array([np.cos(phi), np.sin(phi), 0.0])`: the in-plane
azimuth direction in `sample_fiber`. -/
noncomputable def dirXY (phi : ℝ) : V3 := (Real.cos phi, Real.sin phi, 0.0)

/-- The rotation axis computed in `sample_fiber`:
`axis = np.cross(dir_xy, z)`, replaced by `[1,0,0]` when its norm is below
`1e-9`, otherwise normalized. -/
noncomputable def tiltAxis (phi : ℝ) : V3 :=
  if normV3 (crossV3 (dirXY phi) zAxis) < 1e-9 then (1.0, 0.0, 0.0)
  else scaleV3 (1 / normV3 (crossV3 (dirXY phi) zAxis)) (crossV3 (dirXY phi) zAxis)

/-- The rotation block of `trimesh.transformations.rotation_matrix angle axis`
applied to a vector `v`.  `rotation_matrix` normalizes the axis to a unit
vector `u` and builds `R = cos θ · I + (1 - cos θ) · u uᵀ + sin θ · [u]ₓ`;
applied to `v` this is the Rodrigues form below. -/
noncomputable def rotApply (theta : ℝ) (axis v : V3) : V3 :=
  addV3 (addV3 (scaleV3 (Real.cos theta) v)
               (scaleV3 ((1 - Real.cos theta) * dotV3 (scaleV3 (1 / normV3 axis) axis) v)
                        (scaleV3 (1 / normV3 axis) axis)))
        (scaleV3 (Real.sin theta) (crossV3 (scaleV3 (1 / normV3 axis) axis) v))

/-- The direction vector computed in `sample_fiber`:
`dvec = Rtilt[:3,:3] @ dir_xy`, then `dvec = dvec / np.linalg.norm(dvec)`. -/
noncomputable def fiberDirection (phi tilt : ℝ) : V3 :=
  scaleV3 (1 / normV3 (rotApply tilt (tiltAxis phi) (dirXY phi)))
    (rotApply tilt (tiltAxis phi) (dirXY phi))

theorem normV3_triple (x y z : ℝ) :
    normV3 (x, y, z) = Real.sqrt (x ^ 2 + y ^ 2 + z ^ 2) := rfl

theorem cross_dirXY_zAxis (phi : ℝ) :
    crossV3 (dirXY phi) zAxis = (Real.sin phi, -Real.cos phi, 0) := by
  simp only [crossV3, dirXY, zAxis]
  norm_num

theorem normV3_cross_dirXY (phi : ℝ) :
    normV3 (crossV3 (dirXY phi) zAxis) = 1 := by
  rw [cross_dirXY_zAxis, normV3_triple]
  rw [show Real.sin phi ^ 2 + (-Real.cos phi) ^ 2 + (0 : ℝ) ^ 2 = 1 by
    nlinarith [Real.sin_sq_add_cos_sq phi]]
  exact Real.sqrt_one

theorem tiltAxis_eq (phi : ℝ) :
    tiltAxis phi = (Real.sin phi, -Real.cos phi, 0) := by
  unfold tiltAxis
  rw [normV3_cross_dirXY, if_neg (by norm_num), cross_dirXY_zAxis]
  simp [scaleV3]

theorem fiberDirection_eq (phi tilt : ℝ) :
    fiberDirection phi tilt =
      (Real.cos tilt * Real.cos phi, Real.cos tilt * Real.sin phi, Real.sin tilt) := by
  have hpyth := Real.sin_sq_add_cos_sq phi
  have hrot : rotApply tilt (tiltAxis phi) (dirXY phi) =
      (Real.cos tilt * Real.cos phi, Real.cos tilt * Real.sin phi, Real.sin tilt) := by
    rw [rotApply, tiltAxis_eq]
    have hn : normV3 (Real.sin phi, -Real.cos phi, 0) = 1 := by
      rw [normV3_triple]
      rw [show Real.sin phi ^ 2 + (-Real.cos phi) ^ 2 + (0 : ℝ) ^ 2 = 1 by
        nlinarith [Real.sin_sq_add_cos_sq phi]]
      exact Real.sqrt_one
    rw [hn]
    simp only [scaleV3, dotV3, crossV3, addV3, dirXY, Prod.mk.injEq]
    refine ⟨by ring, by ring, ?_⟩
    linear_combination Real.sin tilt * hpyth
  rw [fiberDirection, hrot]
  have hn1 : normV3 (Real.cos tilt * Real.cos phi, Real.cos tilt * Real.sin phi,
      Real.sin tilt) = 1 := by
    rw [normV3_triple]
    rw [show (Real.cos tilt * Real.cos phi) ^ 2 + (Real.cos tilt * Real.sin phi) ^ 2 +
        Real.sin tilt ^ 2 = 1 by nlinarith [hpyth, Real.sin_sq_add_cos_sq tilt]]
    exact Real.sqrt_one
  rw [hn1]
  simp [scaleV3]

/-- Abstract model of the numpy pseudorandom generator
(`rng = np.random.default_rng(42)` in nanomesh.py): a generator-state type
`S` with a step function `unif` producing a raw uniform draw in `[0,1)`
(from which `rng.uniform(a, b)` is `a + (b-a)*u`) and a step function
`norm` producing a raw standard-normal draw (from which
`rng.normal(0, sigma)` is `sigma * x`). -/
structure RngOps (S : Type) where
  unif : S → ℝ × S
  norm : S → ℝ × S

/-- `L = rng.uniform(L_min, L_max)` in `sample_fiber`, with the new state. -/
def drawLen {S : Type} (ops : RngOps S) (s : S) : ℝ × S :=
  (uniformOn L_min L_max (ops.unif s).1, (ops.unif s).2)

/-- `phi = rng.uniform(0.0, 2 * np.pi)` in `sample_fiber`. -/
noncomputable def drawPhi {S : Type} (ops : RngOps S) (s : S) : ℝ × S :=
  (uniformOn 0.0 (2 * Real.pi) (ops.unif s).1, (ops.unif s).2)

/-- `tilt = np.clip(rng.normal(0.0, np.deg2rad(tilt_std_deg)),
-np.deg2rad(tilt_clip_deg), np.deg2rad(tilt_clip_deg))` in `sample_fiber`. -/
noncomputable def drawTilt {S : Type} (ops : RngOps S) (s : S) : ℝ × S :=
  (npClip (deg2rad tilt_std_deg * (ops.norm s).1)
      (-(deg2rad tilt_clip_deg)) (deg2rad tilt_clip_deg),
   (ops.norm s).2)

/-- The fiber length drawn by `sample_fiber` started in state `s`. -/
def lenOf {S : Type} (ops : RngOps S) (s : S) : ℝ := (drawLen ops s).1

/-- Generator state after the length draw. -/
def lenState {S : Type} (ops : RngOps S) (s : S) : S := (drawLen ops s).2

/-- The azimuth angle drawn by `sample_fiber` started in state `s`. -/
noncomputable def phiOf {S : Type} (ops : RngOps S) (s : S) : ℝ :=
  (drawPhi ops (lenState ops s)).1

/-- Generator state after the azimuth draw. -/
noncomputable def phiState {S : Type} (ops : RngOps S) (s : S) : S :=
  (drawPhi ops (lenState ops s)).2

/-- The clipped tilt angle drawn by `sample_fiber` started in state `s`. -/
noncomputable def tiltOf {S : Type} (ops : RngOps S) (s : S) : ℝ :=
  (drawTilt ops (phiState ops s)).1

/-- Generator state after the tilt draw, i.e. when the rejection loop starts. -/
noncomputable def loopState {S : Type} (ops : RngOps S) (s : S) : S :=
  (drawTilt ops (phiState ops s)).2

/-- The unit direction vector computed by `sample_fiber` started in state `s`. -/
noncomputable def dirOf {S : Type} (ops : RngOps S) (s : S) : V3 :=
  fiberDirection (phiOf ops s) (tiltOf ops s)

/-- Membership in the sheet bounding box `[0,w] × [0,d] × [0,t]`, inclusive
on every axis. -/
def inBox3 (w d t : ℝ) (p : V3) : Prop :=
  0 ≤ p.1 ∧ p.1 ≤ w ∧ 0 ≤ p.2.1 ∧ p.2.1 ≤ d ∧ 0 ≤ p.2.2 ∧ p.2.2 ≤ t

/-- The acceptance test of the rejection loop in `sample_fiber`, in the
source's order: with `p0 = c - half*dvec` and `p1 = c + half*dvec`,
`0 <= p0[0] <= w and 0 <= p1[0] <= w and ... and 0 <= p1[2] <= t`. -/
def acceptCenter (w d t half : ℝ) (dvec c : V3) : Prop :=
  0 ≤ (subV3 c (scaleV3 half dvec)).1 ∧ (subV3 c (scaleV3 half dvec)).1 ≤ w ∧
  0 ≤ (addV3 c (scaleV3 half dvec)).1 ∧ (addV3 c (scaleV3 half dvec)).1 ≤ w ∧
  0 ≤ (subV3 c (scaleV3 half dvec)).2.1 ∧ (subV3 c (scaleV3 half dvec)).2.1 ≤ d ∧
  0 ≤ (addV3 c (scaleV3 half dvec)).2.1 ∧ (addV3 c (scaleV3 half dvec)).2.1 ≤ d ∧
  0 ≤ (subV3 c (scaleV3 half dvec)).2.2 ∧ (subV3 c (scaleV3 half dvec)).2.2 ≤ t ∧
  0 ≤ (addV3 c (scaleV3 half dvec)).2.2 ∧ (addV3 c (scaleV3 half dvec)).2.2 ≤ t

theorem acceptCenter_iff (w d t half : ℝ) (dvec c : V3) :
    acceptCenter w d t half dvec c ↔
      inBox3 w d t (subV3 c (scaleV3 half dvec)) ∧
      inBox3 w d t (addV3 c (scaleV3 half dvec)) := by
  unfold acceptCenter inBox3
  tauto

open Classical in
/-- The center rejection loop of `sample_fiber` (`for _ in range(2000)`):
with `fuel` attempts left, draw a candidate center uniformly in the box and
return the first accepted candidate together with the generator state after
the accepting draws, or `none` when the budget is exhausted. -/
noncomputable def placeLoop {S : Type} (ops : RngOps S) (w d t half : ℝ) (dvec : V3) :
    ℕ → S → Option V3 × S
  | 0, s => (none, s)
  | fuel + 1, s =>
    if acceptCenter w d t half dvec
        (uniformOn 0.0 w (ops.unif s).1,
         uniformOn 0.0 d (ops.unif (ops.unif s).2).1,
         uniformOn 0.0 t (ops.unif (ops.unif (ops.unif s).2).2).1)
    then (some (uniformOn 0.0 w (ops.unif s).1,
                uniformOn 0.0 d (ops.unif (ops.unif s).2).1,
                uniformOn 0.0 t (ops.unif (ops.unif (ops.unif s).2).2).1),
          (ops.unif (ops.unif (ops.unif s).2).2).2)
    else placeLoop ops w d t half dvec fuel (ops.unif (ops.unif (ops.unif s).2).2).2

open Classical in
theorem placeLoop_succ_eq {S : Type} (ops : RngOps S) (w d t half : ℝ)
    (dvec : V3) (fuel : ℕ) (s : S) :
    placeLoop ops w d t half dvec (fuel + 1) s =
      if acceptCenter w d t half dvec
          (uniformOn 0.0 w (ops.unif s).1,
           uniformOn 0.0 d (ops.unif (ops.unif s).2).1,
           uniformOn 0.0 t (ops.unif (ops.unif (ops.unif s).2).2).1)
      then (some (uniformOn 0.0 w (ops.unif s).1,
                  uniformOn 0.0 d (ops.unif (ops.unif s).2).1,
                  uniformOn 0.0 t (ops.unif (ops.unif (ops.unif s).2).2).1),
            (ops.unif (ops.unif (ops.unif s).2).2).2)
      else placeLoop ops w d t half dvec fuel
        (ops.unif (ops.unif (ops.unif s).2).2).2 := by
  simp only [placeLoop]

/-- `sample_fiber(sheet_w, sheet_d, sheet_t)`: draw length, azimuth and
clipped tilt, build the unit direction `dvec`, rejection-sample a center
with budget `n_attempts`, and fall back to the box centroid
`[sheet_w/2, sheet_d/2, sheet_t/2]` when no candidate is accepted.
Returns `((L, c, dvec), final generator state)`. -/
noncomputable def sampleFiberRng {S : Type} (ops : RngOps S) (w d t : ℝ) (s : S) :
    (ℝ × V3 × V3) × S :=
  match placeLoop ops w d t (0.5 * lenOf ops s) (dirOf ops s) n_attempts
      (loopState ops s) with
  | (some c, s') => ((lenOf ops s, c, dirOf ops s), s')
  | (none, s') => ((lenOf ops s, (w / 2, d / 2, t / 2), dirOf ops s), s')

theorem sampleFiberRng_len {S : Type} (ops : RngOps S) (w d t : ℝ) (s : S) :
    (sampleFiberRng ops w d t s).1.1 = lenOf ops s := by
  unfold sampleFiberRng
  rcases hp : placeLoop ops w d t (0.5 * lenOf ops s) (dirOf ops s) n_attempts
      (loopState ops s) with ⟨o, s'⟩
  cases o <;> simp

theorem sampleFiberRng_dir {S : Type} (ops : RngOps S) (w d t : ℝ) (s : S) :
    (sampleFiberRng ops w d t s).1.2.2 = dirOf ops s := by
  unfold sampleFiberRng
  rcases hp : placeLoop ops w d t (0.5 * lenOf ops s) (dirOf ops s) n_attempts
      (loopState ops s) with ⟨o, s'⟩
  cases o <;> simp

theorem npClip_abs_le (v c : ℝ) (hc : 0 ≤ c) : |npClip v (-c) c| ≤ c := by
  unfold npClip
  rw [abs_le]
  refine ⟨le_min (by linarith) (le_max_left _ _), min_le_left _ _⟩

theorem tiltOf_abs_le {S : Type} (ops : RngOps S) (s : S) :
    |tiltOf ops s| ≤ deg2rad tilt_clip_deg := by
  have hc : 0 ≤ deg2rad tilt_clip_deg := by
    unfold deg2rad tilt_clip_deg tilt_std_deg
    positivity
  unfold tiltOf drawTilt
  exact npClip_abs_le _ _ hc

theorem placeLoop_some_accept {S : Type} (ops : RngOps S) (w d t half : ℝ)
    (dvec : V3) :
    ∀ (fuel : ℕ) (s : S) (c : V3) (s' : S),
      placeLoop ops w d t half dvec fuel s = (some c, s') →
      acceptCenter w d t half dvec c := by
  intro fuel
  induction fuel with
  | zero =>
    intro s c s' h
    simp [placeLoop] at h
  | succ n ih =>
    intro s c s' h
    simp only [placeLoop] at h
    split at h
    · rename_i hacc
      simp only [Prod.mk.injEq, Option.some.injEq] at h
      rw [← h.1]
      exact hacc
    · exact ih _ c s' h

/-- **C1.** For positive sheet bounds, whenever `sample_fiber` returns from
the acceptance branch of the rejection loop (the loop yields `some c`), the
returned center is that accepted candidate and both fiber endpoints
`c ± (L/2)·dvec` lie within `[0,sheet_w] × [0,sheet_d] × [0,sheet_t]` on
every axis, with inclusive bounds. -/
theorem sample_fiber_accepted_endpoints_in_box {S : Type} (ops : RngOps S)
    (w d t : ℝ) (s : S) (hw : 0 < w) (hd : 0 < d) (ht : 0 < t) (c : V3) (s' : S)
    (hacc : placeLoop ops w d t (0.5 * lenOf ops s) (dirOf ops s) n_attempts
      (loopState ops s) = (some c, s')) :
    (sampleFiberRng ops w d t s).1.2.1 = c ∧
    inBox3 w d t (subV3 c (scaleV3 (0.5 * lenOf ops s) (dirOf ops s))) ∧
    inBox3 w d t (addV3 c (scaleV3 (0.5 * lenOf ops s) (dirOf ops s))) := by
  have ha := placeLoop_some_accept ops w d t _ _ _ _ _ _ hacc
  rw [acceptCenter_iff] at ha
  refine ⟨?_, ha.1, ha.2⟩
  unfold sampleFiberRng
  rw [hacc]

/-- **C4.** The direction returned by `sample_fiber` (acceptance branch or
fallback alike) makes an angle with the horizontal plane, `|arcsin dvec_z|`,
of at most three times the configured tilt standard deviation
(`3 * deg2rad(tilt_std_deg)`, i.e. 3 degrees at the default). -/
theorem sample_fiber_tilt_bounded {S : Type} (ops : RngOps S) (w d t : ℝ)
    (s : S) :
    |Real.arcsin ((sampleFiberRng ops w d t s).1.2.2).2.2| ≤
      3 * deg2rad tilt_std_deg := by
  rw [sampleFiberRng_dir]
  unfold dirOf
  rw [fiberDirection_eq]
  have hb := tiltOf_abs_le ops s
  have hb' := abs_le.mp hb
  have hpi := Real.pi_pos
  have hclip : deg2rad tilt_clip_deg = 3 * deg2rad tilt_std_deg := by
    unfold deg2rad tilt_clip_deg
    ring
  have hhalf : deg2rad tilt_clip_deg ≤ Real.pi / 2 := by
    unfold deg2rad tilt_clip_deg tilt_std_deg
    nlinarith
  show |Real.arcsin (Real.sin (tiltOf ops s))| ≤ 3 * deg2rad tilt_std_deg
  rw [Real.arcsin_sin (by linarith [hb'.1]) (by linarith [hb'.2])]
  rw [← hclip]
  exact hb

/-- **C5.** If no candidate center is accepted within the retry budget,
`sample_fiber` does not fail: it returns the already-drawn length, the
bounding box's centroid `(sheet_w/2, sheet_d/2, sheet_t/2)` as center, and
the already-computed direction vector. -/
theorem sample_fiber_fallback_centroid {S : Type} (ops : RngOps S)
    (w d t : ℝ) (s : S)
    (hnone : (placeLoop ops w d t (0.5 * lenOf ops s) (dirOf ops s) n_attempts
      (loopState ops s)).1 = none) :
    (sampleFiberRng ops w d t s).1 =
      (lenOf ops s, (w / 2, d / 2, t / 2), dirOf ops s) := by
  unfold sampleFiberRng
  rcases hp : placeLoop ops w d t (0.5 * lenOf ops s) (dirOf ops s) n_attempts
      (loopState ops s) with ⟨o, s'⟩
  rw [hp] at hnone
  cases o with
  | none => simp
  | some c => simp at hnone

/-- **C8.** Whenever the raw uniform draw used for the length lies in
`[0,1)` (as numpy's generator guarantees), the length returned by
`sample_fiber` lies in the closed interval `[5, 15]`, on every return path
(acceptance or fallback), for arbitrary sheet bounds. -/
theorem sample_fiber_length_in_range {S : Type} (ops : RngOps S)
    (w d t : ℝ) (s : S)
    (h0 : 0 ≤ (ops.unif s).1) (h1 : (ops.unif s).1 < 1) :
    5 ≤ (sampleFiberRng ops w d t s).1.1 ∧
      (sampleFiberRng ops w d t s).1.1 ≤ 15 := by
  rw [sampleFiberRng_len]
  unfold lenOf drawLen uniformOn L_min L_max
  norm_num
  constructor <;> nlinarith

/-- **C10.** The degenerate-axis branch in `sample_fiber` is unreachable:
for every azimuth `phi` the cross product of the in-plane direction with
the vertical axis has norm exactly 1, so the test `axis_norm < 1e-9` fails
and the axis is the normalized cross product, never the fallback `[1,0,0]`. -/
theorem sample_fiber_axis_branch_unreachable (phi : ℝ) :
    normV3 (crossV3 (dirXY phi) zAxis) = 1 ∧
    ¬ normV3 (crossV3 (dirXY phi) zAxis) < 1e-9 ∧
    tiltAxis phi = (Real.sin phi, -Real.cos phi, 0) := by
  refine ⟨normV3_cross_dirXY phi, ?_, tiltAxis_eq phi⟩
  rw [normV3_cross_dirXY]
  norm_num

theorem npClip_zero (c : ℝ) (hc : 0 ≤ c) : npClip 0 (-c) c = 0 := by
  unfold npClip
  rw [max_eq_right (by linarith), min_eq_right hc]

theorem deg2rad_clip_nonneg : 0 ≤ deg2rad tilt_clip_deg := by
  unfold deg2rad tilt_clip_deg tilt_std_deg
  positivity

theorem placeLoop_all_reject {S : Type} (ops : RngOps S) (w d t half : ℝ)
    (dvec : V3)
    (h : ∀ s : S, ¬ acceptCenter w d t half dvec
      (uniformOn 0.0 w (ops.unif s).1,
       uniformOn 0.0 d (ops.unif (ops.unif s).2).1,
       uniformOn 0.0 t (ops.unif (ops.unif (ops.unif s).2).2).1)) :
    ∀ (fuel : ℕ) (s : S), (placeLoop ops w d t half dvec fuel s).1 = none := by
  intro fuel
  induction fuel with
  | zero => intro s; simp [placeLoop]
  | succ n ih =>
    intro s
    simp only [placeLoop]
    rw [if_neg (h s)]
    exact ih _

/-- A concrete generator used to instantiate the sampler theorems: the state
is a step counter, the raw uniform draw is 0 on the very first step and 1/2
afterwards, the raw normal draw is always 0. -/
noncomputable def demoOps : RngOps ℕ :=
  ⟨fun n => (if n = 0 then 0 else 1 / 2, n + 1), fun n => (0, n + 1)⟩

/-- A concrete generator whose raw draws are all 0, so that (for a small
sheet) every candidate center is rejected. -/
noncomputable def rejectOps : RngOps ℕ :=
  ⟨fun n => (0, n + 1), fun n => (0, n + 1)⟩

theorem demo_lenOf : lenOf demoOps 0 = 5 := by
  unfold lenOf drawLen uniformOn L_min L_max demoOps
  norm_num

theorem demo_phiOf : phiOf demoOps 0 = Real.pi := by
  unfold phiOf drawPhi lenState drawLen demoOps uniformOn
  norm_num
  ring

theorem demo_tiltOf : tiltOf demoOps 0 = 0 := by
  unfold tiltOf drawTilt phiState drawPhi lenState drawLen demoOps
  norm_num
  exact npClip_zero _ deg2rad_clip_nonneg

theorem demo_loopState : loopState demoOps 0 = 3 := by
  unfold loopState drawTilt phiState drawPhi lenState drawLen demoOps
  norm_num

theorem demo_dirOf : dirOf demoOps 0 = (-1, 0, 0) := by
  unfold dirOf
  rw [demo_phiOf, demo_tiltOf, fiberDirection_eq]
  norm_num

theorem reject_lenOf : lenOf rejectOps 0 = 5 := by
  unfold lenOf drawLen uniformOn L_min L_max rejectOps
  norm_num

theorem reject_phiOf : phiOf rejectOps 0 = 0 := by
  unfold phiOf drawPhi lenState drawLen rejectOps uniformOn
  norm_num

theorem reject_tiltOf : tiltOf rejectOps 0 = 0 := by
  unfold tiltOf drawTilt phiState drawPhi lenState drawLen rejectOps
  norm_num
  exact npClip_zero _ deg2rad_clip_nonneg

theorem reject_dirOf : dirOf rejectOps 0 = (1, 0, 0) := by
  unfold dirOf
  rw [reject_phiOf, reject_tiltOf, fiberDirection_eq]
  norm_num

theorem demo_placeLoop_accepts :
    placeLoop demoOps 10 10 10 (0.5 * lenOf demoOps 0) (dirOf demoOps 0)
      n_attempts (loopState demoOps 0) = (some (5, 5, 5), 6) := by
  rw [demo_lenOf, demo_dirOf, demo_loopState]
  rw [show n_attempts = 1999 + 1 by norm_num [n_attempts]]
  rw [placeLoop_succ_eq]
  norm_num [demoOps, uniformOn]
  intro hfalse
  exact absurd (by unfold acceptCenter subV3 addV3 scaleV3; norm_num) hfalse

/-- Witness for C1: a concrete run in which the rejection loop accepts the
candidate `(5,5,5)`; the theorem then yields that the returned center is
`(5,5,5)` and both endpoints lie in the box `[0,10]^3`. -/
theorem sample_fiber_accepted_endpoints_in_box_witness :
    (sampleFiberRng demoOps 10 10 10 0).1.2.1 = (5, 5, 5) ∧
    inBox3 10 10 10
      (subV3 (5, 5, 5) (scaleV3 (0.5 * lenOf demoOps 0) (dirOf demoOps 0))) ∧
    inBox3 10 10 10
      (addV3 (5, 5, 5) (scaleV3 (0.5 * lenOf demoOps 0) (dirOf demoOps 0))) :=
  sample_fiber_accepted_endpoints_in_box demoOps 10 10 10 0 (by norm_num)
    (by norm_num) (by norm_num) (5, 5, 5) 6 demo_placeLoop_accepts

theorem reject_placeLoop_none :
    (placeLoop rejectOps 1 1 1 (0.5 * lenOf rejectOps 0) (dirOf rejectOps 0)
      n_attempts (loopState rejectOps 0)).1 = none := by
  rw [reject_lenOf, reject_dirOf]
  refine placeLoop_all_reject rejectOps 1 1 1 (0.5 * 5) (1, 0, 0) ?_ _ _
  intro s hacc
  have h1 : (subV3
      (uniformOn 0.0 1 (rejectOps.unif s).1,
       uniformOn 0.0 1 (rejectOps.unif (rejectOps.unif s).2).1,
       uniformOn 0.0 1 (rejectOps.unif (rejectOps.unif (rejectOps.unif s).2).2).1)
      (scaleV3 (0.5 * 5) (1, 0, 0))).1 = -(5 : ℝ) / 2 := by
    unfold subV3 scaleV3 uniformOn rejectOps
    norm_num
  have h2 := hacc.1
  rw [h1] at h2
  norm_num at h2

/-- Witness for C5: a concrete run (unit sheet, all-zero raw draws, fiber
length 5) in which every candidate is rejected; the theorem then yields that
`sample_fiber` returns the centroid `(1/2, 1/2, 1/2)` with the drawn length
and direction. -/
theorem sample_fiber_fallback_centroid_witness :
    (sampleFiberRng rejectOps 1 1 1 0).1 =
      (lenOf rejectOps 0, ((1 : ℝ) / 2, (1 : ℝ) / 2, (1 : ℝ) / 2),
        dirOf rejectOps 0) :=
  sample_fiber_fallback_centroid rejectOps 1 1 1 0 reject_placeLoop_none

/-- Witness for C8: with the all-zero generator the raw draw is 0 ∈ [0,1)
and the returned length indeed lies in `[5, 15]`. -/
theorem sample_fiber_length_in_range_witness :
    5 ≤ (sampleFiberRng rejectOps 1 1 1 0).1.1 ∧
      (sampleFiberRng rejectOps 1 1 1 0).1.1 ≤ 15 :=
  sample_fiber_length_in_range rejectOps 1 1 1 0 (by norm_num [rejectOps])
    (by norm_num [rejectOps])

/-- A triangle mesh: a vertex array and triangular faces given as triples of
vertex indices, modelling the data of a `trimesh.Trimesh`. -/
structure Mesh where
  vertices : List V3
  faces : List (ℕ × ℕ × ℕ)

/-- The empty mesh (zero vertices, zero faces). -/
def emptyMesh : Mesh := ⟨[], []⟩

/-- Modelled from the spec: the Mesh Assembler
(`trimesh.util.concatenate`, called at the end of `generate_nanomesh_stl`)
is library code not present in this repository's sources; per the spec it
concatenates vertex and face data of two solids, offsetting the second
solid's face indices by the first's vertex count, with no vertex welding or
deduplication. -/
def appendMesh (a b : Mesh) : Mesh :=
  ⟨a.vertices ++ b.vertices,
   a.faces ++ b.faces.map (fun f =>
     (f.1 + a.vertices.length, f.2.1 + a.vertices.length,
      f.2.2 + a.vertices.length))⟩

/-- Modelled from the spec: `trimesh.util.concatenate` over a whole list of
solids, folding in insertion order. -/
def concatMeshes (ms : List Mesh) : Mesh := ms.foldl appendMesh emptyMesh

theorem foldl_appendMesh_counts :
    ∀ (ms : List Mesh) (a : Mesh),
      (ms.foldl appendMesh a).vertices.length =
        a.vertices.length + (ms.map (fun m => m.vertices.length)).sum ∧
      (ms.foldl appendMesh a).faces.length =
        a.faces.length + (ms.map (fun m => m.faces.length)).sum := by
  intro ms
  induction ms with
  | nil => intro a; simp
  | cons m rest ih =>
    intro a
    have h := ih (appendMesh a m)
    simp only [List.foldl_cons, List.map_cons, List.sum_cons]
    refine ⟨?_, ?_⟩
    · rw [h.1]
      simp [appendMesh]
      ring
    · rw [h.2]
      simp [appendMesh]
      ring

/-- **C2.** Assembling an empty list of fiber solids yields an empty mesh
(zero vertices, zero faces); assembling any list of solids yields exactly
the sum of the vertex counts and the sum of the face counts — no vertex
welding or deduplication across solids. -/
theorem assemble_counts :
    (concatMeshes []).vertices.length = 0 ∧
    (concatMeshes []).faces.length = 0 ∧
    ∀ ms : List Mesh,
      (concatMeshes ms).vertices.length =
        (ms.map (fun m => m.vertices.length)).sum ∧
      (concatMeshes ms).faces.length =
        (ms.map (fun m => m.faces.length)).sum := by
  refine ⟨rfl, rfl, ?_⟩
  intro ms
  have h := foldl_appendMesh_counts ms emptyMesh
  unfold concatMeshes
  simpa [emptyMesh] using h

/-- The fiber-generation loop of `generate_nanomesh_stl`: `n` successive
calls to `sample_fiber`, threading the shared generator state, collecting
the sampled `(L, c, dvec)` descriptors in call order. -/
noncomputable def generateFibersRng {S : Type} (ops : RngOps S) (w d t : ℝ) :
    ℕ → S → List (ℝ × V3 × V3) × S
  | 0, s => ([], s)
  | n + 1, s =>
    ((sampleFiberRng ops w d t s).1 ::
        (generateFibersRng ops w d t n (sampleFiberRng ops w d t s).2).1,
     (generateFibersRng ops w d t n (sampleFiberRng ops w d t s).2).2)

/-- `generate_nanomesh_stl` up to (but not including) the file export:
sample `n` fibers, build one cylinder solid per fiber — `buildSolid`
abstracts the external trimesh cylinder/subdivide/rotate/translate pipeline
applied to `(L, c, dvec)` — and concatenate all the solids. -/
noncomputable def generateNanomesh {S : Type} (ops : RngOps S)
    (buildSolid : ℝ → V3 → V3 → Mesh) (w d t : ℝ) (n : ℕ) (s : S) : Mesh :=
  concatMeshes ((generateFibersRng ops w d t n s).1.map
    (fun f => buildSolid f.1 f.2.1 f.2.2))

/-- **C9.** Fiber generation is deterministic given the generator state: two
runs with the same state-machine generator started from equal seeds, with
identical parameters, produce the identical sequence of fiber descriptors
(lengths, centers, directions) and hence the identical combined mesh. -/
theorem generation_deterministic {S : Type} (ops : RngOps S)
    (buildSolid : ℝ → V3 → V3 → Mesh) (w d t : ℝ) (n : ℕ) (s s' : S)
    (hs : s = s') :
    (generateFibersRng ops w d t n s).1 = (generateFibersRng ops w d t n s').1 ∧
    generateNanomesh ops buildSolid w d t n s =
      generateNanomesh ops buildSolid w d t n s' := by
  subst hs
  exact ⟨rfl, rfl⟩

/-- Witness for C9: two one-fiber runs of the concrete demo generator from
the same seed agree on the fiber list and the combined mesh. -/
theorem generation_deterministic_witness :
    (generateFibersRng demoOps 10 10 10 1 0).1 =
      (generateFibersRng demoOps 10 10 10 1 0).1 ∧
    generateNanomesh demoOps (fun _ _ _ => emptyMesh) 10 10 10 1 0 =
      generateNanomesh demoOps (fun _ _ _ => emptyMesh) 10 10 10 1 0 :=
  generation_deterministic demoOps (fun _ _ _ => emptyMesh) 10 10 10 1 0 0 rfl

/-- 2D points of the comb outlines (DXF plane), over `ℚ`. -/
abbrev P2 : Type := ℚ × ℚ

/-- Python's `sorted` (ascending) on a list of rationals. -/
def pySorted (l : List ℚ) : List ℚ := l.insertionSort (· ≤ ·)

/-- Python's `sorted(..., reverse=True)` (descending) on rationals. -/
def pySortedDesc (l : List ℚ) : List ℚ := l.insertionSort (fun a b => b ≤ a)

/-- `e1_fingers = sorted(y0 + i * pitch for i in range(N) if i % 2 == 0)`
from `build_geometry`. -/
def e1FingersOf (pitch y0 : ℚ) (N : ℕ) : List ℚ :=
  pySorted (((List.range N).filter (fun i => i % 2 == 0)).map
    (fun (i : ℕ) => y0 + (i : ℚ) * pitch))

/-- `e2_fingers = sorted(y0 + i * pitch for i in range(N) if i % 2 != 0)`
from `build_geometry`. -/
def e2FingersOf (pitch y0 : ℚ) (N : ℕ) : List ℚ :=
  pySorted (((List.range N).filter (fun i => i % 2 != 0)).map
    (fun (i : ℕ) => y0 + (i : ℚ) * pitch))

/-- The E1 finger loop of `build_geometry`: starting from `cur_y`, for each
finger baseline `fy` append `(B, fy)` when `fy > cur_y`, then
`(B+L, fy), (B+L, fy+w), (B, fy+w)`, and continue with `cur_y = fy + w`.
Returns the appended points and the final `cur_y` (here `B` already
includes `x_left_bus = 0.0`). -/
def e1Body (B L w : ℚ) : List ℚ → ℚ → List P2 × ℚ
  | [], curY => ([], curY)
  | fy :: rest, curY =>
    ((if curY < fy then [((B, fy) : P2)] else []) ++
      [(B + L, fy), (B + L, fy + w), (B, fy + w)] ++
      (e1Body B L w rest (fy + w)).1,
     (e1Body B L w rest (fy + w)).2)

/-- `e1_pts` of `build_geometry` (with `x_left_bus = 0.0` inlined):
`[(0,0), (B,0)]`, the finger loop from `cur_y = 0`, then `(B, H)` when
`H > cur_y`, then `(0, H)`. -/
def e1Pts (B L w H : ℚ) (fingers : List ℚ) : List P2 :=
  [(0, 0), (B, 0)] ++ (e1Body B L w fingers 0).1 ++
  (if (e1Body B L w fingers 0).2 < H then [((B, H) : P2)] else []) ++
  [(0, H)]

/-- The E2 finger loop of `build_geometry` (fingers iterated in descending
order): for each `fy` with `fy_top = fy + w`, append `(XR, fy_top)` when
`fy_top < cur_y`, then `(XR-L, fy_top), (XR-L, fy), (XR, fy)`, and continue
with `cur_y = fy`. -/
def e2Body (XR L w : ℚ) : List ℚ → ℚ → List P2 × ℚ
  | [], curY => ([], curY)
  | fy :: rest, curY =>
    ((if fy + w < curY then [((XR, fy + w) : P2)] else []) ++
      [(XR - L, fy + w), (XR - L, fy), (XR, fy)] ++
      (e2Body XR L w rest fy).1,
     (e2Body XR L w rest fy).2)

/-- `e2_pts` of `build_geometry`: `[(XR+B, 0), (XR+B, H), (XR, H)]`, the
finger loop from `cur_y = H`, then `(XR, 0)` when `cur_y > 0`. -/
def e2Pts (XR B L w H : ℚ) (fingersDesc : List ℚ) : List P2 :=
  [(XR + B, 0), (XR + B, H), (XR, H)] ++ (e2Body XR L w fingersDesc H).1 ++
  (if 0 < (e2Body XR L w fingersDesc H).2 then [((XR, 0) : P2)] else [])

/-- `build_geometry(w, g, L, N, B, margin_top, margin_bottom)` from
comb_dxf.py: the two closed electrode outlines (as point lists tagged
"E1"/"E2") plus total width and height. -/
def build_geometry (w g L : ℚ) (N : ℕ) (B mt mb : ℚ) :
    List (String × List P2) × ℚ × ℚ :=
  let pitch := w + g
  let active_h := (N : ℚ) * pitch - g
  let H := mb + active_h + mt
  let x_right_bus := B + L + g
  let W := x_right_bus + B
  let y0 := mb
  ([("E1", e1Pts B L w H (e1FingersOf pitch y0 N)),
    ("E2", e2Pts x_right_bus B L w H (pySortedDesc (e2FingersOf pitch y0 N)))],
   W, H)

/-- **C3.** `build_geometry` returns
`total_width = bus_width + finger_length + gap + bus_width` and
`total_height = margin_bottom + (finger_count*(finger_width+gap) - gap)
+ margin_top` for all inputs; in particular at
`(w=1, g=1, L=10, N=10, B=5, margin_top=0, margin_bottom=10)` it returns
`total_width = 21` and `total_height = 29`. -/
theorem build_geometry_dimensions :
    (∀ (w g L : ℚ) (N : ℕ) (B mt mb : ℚ),
      (build_geometry w g L N B mt mb).2.1 = B + L + g + B ∧
      (build_geometry w g L N B mt mb).2.2 =
        mb + ((N : ℚ) * (w + g) - g) + mt) ∧
    (build_geometry 1 1 10 10 5 0 10).2.1 = 21 ∧
    (build_geometry 1 1 10 10 5 0 10).2.2 = 29 := by
  refine ⟨fun w g L N B mt mb => ⟨?_, ?_⟩, ?_, ?_⟩ <;>
    simp [build_geometry] <;> ring

theorem fy_mono_sorted (pitch y0 : ℚ) (hp : 0 ≤ pitch) (l : List ℕ)
    (hl : l.Pairwise (· < ·)) :
    List.Sorted (· ≤ ·) (l.map (fun (i : ℕ) => y0 + (i : ℚ) * pitch)) := by
  rw [List.Sorted, List.pairwise_map]
  refine hl.imp ?_
  intro a b hab
  have hab' : (a : ℚ) ≤ (b : ℚ) := by exact_mod_cast hab.le
  have := mul_le_mul_of_nonneg_right hab' hp
  linarith

theorem filter_even_range_length :
    ∀ N : ℕ, ((List.range N).filter (fun i => i % 2 == 0)).length = (N + 1) / 2
  | 0 => rfl
  | N + 1 => by
    rw [List.range_succ, List.filter_append, List.length_append,
      filter_even_range_length N]
    rcases Nat.mod_two_eq_zero_or_one N with h | h
    · simp [h]
      omega
    · simp [h]
      omega

theorem filter_odd_range_length :
    ∀ N : ℕ, ((List.range N).filter (fun i => i % 2 != 0)).length = N / 2
  | 0 => rfl
  | N + 1 => by
    rw [List.range_succ, List.filter_append, List.length_append,
      filter_odd_range_length N]
    rcases Nat.mod_two_eq_zero_or_one N with h | h
    · simp [h]
      omega
    · simp [h]
      omega

/-- **C7.** For every `N ≥ 1` (and positive width and gap), the comb
builder assigns exactly the even indices `i` of `[0, N)` to E1 and the odd
ones to E2, finger `i` having baseline `margin_bottom + i * pitch`; hence
E1 receives `⌈N/2⌉` fingers and E2 receives `⌊N/2⌋`. -/
theorem comb_finger_parity (w g mb : ℚ) (N : ℕ)
    (hw : 0 < w) (hg : 0 < g) (hN : 1 ≤ N) :
    e1FingersOf (w + g) mb N =
      ((List.range N).filter (fun i => i % 2 == 0)).map
        (fun (i : ℕ) => mb + (i : ℚ) * (w + g)) ∧
    e2FingersOf (w + g) mb N =
      ((List.range N).filter (fun i => i % 2 != 0)).map
        (fun (i : ℕ) => mb + (i : ℚ) * (w + g)) ∧
    (e1FingersOf (w + g) mb N).length = (N + 1) / 2 ∧
    (e2FingersOf (w + g) mb N).length = N / 2 := by
  have hp : (0 : ℚ) ≤ w + g := by linarith
  have hs1 := fy_mono_sorted (w + g) mb hp _
    ((List.pairwise_lt_range N).filter (fun i => i % 2 == 0))
  have hs2 := fy_mono_sorted (w + g) mb hp _
    ((List.pairwise_lt_range N).filter (fun i => i % 2 != 0))
  refine ⟨hs1.insertionSort_eq, hs2.insertionSort_eq, ?_, ?_⟩
  · show (List.insertionSort (· ≤ ·)
      (((List.range N).filter (fun i => i % 2 == 0)).map
        (fun (i : ℕ) => mb + (i : ℚ) * (w + g)))).length = (N + 1) / 2
    rw [List.length_insertionSort, List.length_map, filter_even_range_length]
  · show (List.insertionSort (· ≤ ·)
      (((List.range N).filter (fun i => i % 2 != 0)).map
        (fun (i : ℕ) => mb + (i : ℚ) * (w + g)))).length = N / 2
    rw [List.length_insertionSort, List.length_map, filter_odd_range_length]

/-- Witness for C7: the finger split at `w = g = 1`, `margin_bottom = 2`,
`N = 3`. -/
theorem comb_finger_parity_witness :
    e1FingersOf (1 + 1) 2 3 =
      ((List.range 3).filter (fun i => i % 2 == 0)).map
        (fun (i : ℕ) => (2 : ℚ) + (i : ℚ) * (1 + 1)) ∧
    e2FingersOf (1 + 1) 2 3 =
      ((List.range 3).filter (fun i => i % 2 != 0)).map
        (fun (i : ℕ) => (2 : ℚ) + (i : ℚ) * (1 + 1)) ∧
    (e1FingersOf (1 + 1) 2 3).length = (3 + 1) / 2 ∧
    (e2FingersOf (1 + 1) 2 3).length = 3 / 2 :=
  comb_finger_parity 1 1 2 3 (by norm_num) (by norm_num) (by norm_num)

/-- Points on the closed segment from `a` to `b`. -/
def onSeg (a b r : P2) : Prop :=
  ∃ u : ℚ, 0 ≤ u ∧ u ≤ 1 ∧
    r.1 = a.1 + u * (b.1 - a.1) ∧ r.2 = a.2 + u * (b.2 - a.2)

/-- The vertex-to-vertex segments of a closed polyline, including the
implicit closing edge from the last vertex back to the first (the consumer
treats the point list as closed, DXF `close=True`). -/
def closedSegs : List P2 → List (P2 × P2)
  | [] => []
  | a :: l => (a :: l).zip (l ++ [a])

/-- Membership in the boundary (union of all segments) of a closed
polyline. -/
def onLoop (pts : List P2) (r : P2) : Prop :=
  ∃ sg ∈ closedSegs pts, onSeg sg.1 sg.2 r

theorem chain_zip {α : Type} {R : α → α → Prop} :
    ∀ (l : List α) (a : α), List.Chain R a l →
      ∀ x y : α, (x, y) ∈ (a :: l).zip l → R x y := by
  intro l
  induction l with
  | nil => intro a _ x y h; simp at h
  | cons b l' ih =>
    intro a hc x y h
    rw [List.chain_cons] at hc
    rw [List.zip_cons_cons, List.mem_cons] at h
    rcases h with h | h
    · rw [Prod.mk.injEq] at h
      rw [h.1, h.2]
      exact hc.1
    · exact ih b hc.2 x y h

theorem zip_append_left {α β : Type} :
    ∀ (l₁ : List α) (l₂ : List β) (l₃ : List α),
      l₂.length ≤ l₁.length → (l₁ ++ l₃).zip l₂ = l₁.zip l₂ := by
  intro l₁
  induction l₁ with
  | nil =>
    intro l₂ l₃ h
    rw [List.length_nil, Nat.le_zero, List.length_eq_zero] at h
    subst h
    simp
  | cons a as ih =>
    intro l₂ l₃ h
    cases l₂ with
    | nil => simp
    | cons b bs =>
      simp only [List.cons_append, List.zip_cons_cons]
      rw [ih bs l₃ (by simpa using h)]

theorem chain_closedSegs {R : P2 → P2 → Prop} (a : P2) (l : List P2)
    (hc : List.Chain R a (l ++ [a])) :
    ∀ x y : P2, (x, y) ∈ closedSegs (a :: l) → R x y := by
  intro x y h
  simp only [closedSegs] at h
  rw [show (a :: l).zip (l ++ [a]) = ((a :: l) ++ [a]).zip (l ++ [a]) from
    (zip_append_left (a :: l) (l ++ [a]) [a] (by simp)).symm] at h
  exact chain_zip (l ++ [a]) a hc x y h

/-- The axis-aligned closed rectangle `[x0,x1] × [y0,y1]`. -/
def inRect (x0 x1 y0 y1 : ℚ) (r : P2) : Prop :=
  x0 ≤ r.1 ∧ r.1 ≤ x1 ∧ y0 ≤ r.2 ∧ r.2 ≤ y1

theorem inRect_of_onSeg {x0 x1 y0 y1 : ℚ} {a b r : P2}
    (ha : inRect x0 x1 y0 y1 a) (hb : inRect x0 x1 y0 y1 b)
    (hr : onSeg a b r) : inRect x0 x1 y0 y1 r := by
  obtain ⟨ha1, ha2, ha3, ha4⟩ := ha
  obtain ⟨hb1, hb2, hb3, hb4⟩ := hb
  obtain ⟨u, hu0, hu1, hrx, hry⟩ := hr
  have h1u : (0 : ℚ) ≤ 1 - u := by linarith
  refine ⟨?_, ?_, ?_, ?_⟩
  · rw [hrx]
    nlinarith [mul_nonneg h1u (show (0:ℚ) ≤ a.1 - x0 by linarith),
      mul_nonneg hu0 (show (0:ℚ) ≤ b.1 - x0 by linarith)]
  · rw [hrx]
    nlinarith [mul_nonneg h1u (show (0:ℚ) ≤ x1 - a.1 by linarith),
      mul_nonneg hu0 (show (0:ℚ) ≤ x1 - b.1 by linarith)]
  · rw [hry]
    nlinarith [mul_nonneg h1u (show (0:ℚ) ≤ a.2 - y0 by linarith),
      mul_nonneg hu0 (show (0:ℚ) ≤ b.2 - y0 by linarith)]
  · rw [hry]
    nlinarith [mul_nonneg h1u (show (0:ℚ) ≤ y1 - a.2 by linarith),
      mul_nonneg hu0 (show (0:ℚ) ≤ y1 - b.2 by linarith)]

/-- Finger `i`'s baseline `y0 + i * pitch` (`y0 = margin_bottom`). -/
def fingY (pitch y0 : ℚ) (i : ℕ) : ℚ := y0 + (i : ℚ) * pitch

/-- Each segment of the E1 outline has both endpoints in the E1 busbar
rectangle or both in a single even-index finger rectangle. -/
def seg1OK (B L w pitch y0 H : ℚ) (N : ℕ) (a b : P2) : Prop :=
  (inRect 0 B 0 H a ∧ inRect 0 B 0 H b) ∨
  ∃ i : ℕ, i < N ∧ i % 2 = 0 ∧
    inRect B (B + L) (fingY pitch y0 i) (fingY pitch y0 i + w) a ∧
    inRect B (B + L) (fingY pitch y0 i) (fingY pitch y0 i + w) b

/-- The E1 region: busbar rectangle `[0,B] × [0,H]` union the even-index
finger rectangles `[B, B+L] × [fy_i, fy_i + w]`. -/
def inS1 (B L w pitch y0 H : ℚ) (N : ℕ) (r : P2) : Prop :=
  inRect 0 B 0 H r ∨
  ∃ i : ℕ, i < N ∧ i % 2 = 0 ∧
    inRect B (B + L) (fingY pitch y0 i) (fingY pitch y0 i + w) r

/-- Each segment of the E2 outline has both endpoints in the E2 busbar
rectangle or both in a single odd-index finger rectangle. -/
def seg2OK (XR B L w pitch y0 H : ℚ) (N : ℕ) (a b : P2) : Prop :=
  (inRect XR (XR + B) 0 H a ∧ inRect XR (XR + B) 0 H b) ∨
  ∃ i : ℕ, i < N ∧ i % 2 = 1 ∧
    inRect (XR - L) XR (fingY pitch y0 i) (fingY pitch y0 i + w) a ∧
    inRect (XR - L) XR (fingY pitch y0 i) (fingY pitch y0 i + w) b

/-- The E2 region: busbar rectangle `[XR, XR+B] × [0,H]` union the
odd-index finger rectangles `[XR-L, XR] × [fy_i, fy_i + w]`. -/
def inS2 (XR B L w pitch y0 H : ℚ) (N : ℕ) (r : P2) : Prop :=
  inRect XR (XR + B) 0 H r ∨
  ∃ i : ℕ, i < N ∧ i % 2 = 1 ∧
    inRect (XR - L) XR (fingY pitch y0 i) (fingY pitch y0 i + w) r

theorem inS1_of_seg1OK {B L w pitch y0 H : ℚ} {N : ℕ} {a b r : P2}
    (hs : seg1OK B L w pitch y0 H N a b) (hr : onSeg a b r) :
    inS1 B L w pitch y0 H N r := by
  rcases hs with ⟨ha, hb⟩ | ⟨i, hi, hp, ha, hb⟩
  · exact Or.inl (inRect_of_onSeg ha hb hr)
  · exact Or.inr ⟨i, hi, hp, inRect_of_onSeg ha hb hr⟩

theorem inS2_of_seg2OK {XR B L w pitch y0 H : ℚ} {N : ℕ} {a b r : P2}
    (hs : seg2OK XR B L w pitch y0 H N a b) (hr : onSeg a b r) :
    inS2 XR B L w pitch y0 H N r := by
  rcases hs with ⟨ha, hb⟩ | ⟨i, hi, hp, ha, hb⟩
  · exact Or.inl (inRect_of_onSeg ha hb hr)
  · exact Or.inr ⟨i, hi, hp, inRect_of_onSeg ha hb hr⟩

theorem e1Body_final (B L w H : ℚ) (hw : 0 ≤ w) :
    ∀ (fingers : List ℚ) (curY : ℚ),
      (∀ fy ∈ fingers, curY ≤ fy) →
      (∀ fy ∈ fingers, fy + w ≤ H) → curY ≤ H →
      List.Pairwise (fun a b => a + w ≤ b) fingers →
      curY ≤ (e1Body B L w fingers curY).2 ∧
        (e1Body B L w fingers curY).2 ≤ H := by
  intro fingers
  induction fingers with
  | nil =>
    intro curY _ _ h3 _
    exact ⟨le_rfl, h3⟩
  | cons fy rest ih =>
    intro curY h1 h2 h3 h4
    simp only [e1Body]
    rw [List.pairwise_cons] at h4
    have hfy : curY ≤ fy := h1 fy (List.mem_cons_self _ _)
    have hfyH : fy + w ≤ H := h2 fy (List.mem_cons_self _ _)
    have ihh := ih (fy + w) (fun z hz => h4.1 z hz)
      (fun z hz => h2 z (List.mem_cons_of_mem _ hz)) hfyH h4.2
    exact ⟨le_trans (by linarith) ihh.1, ihh.2⟩

theorem e2Body_final (XR L w : ℚ) (hw : 0 ≤ w) :
    ∀ (fingers : List ℚ) (curY : ℚ),
      (∀ fy ∈ fingers, fy + w ≤ curY) →
      (∀ fy ∈ fingers, 0 ≤ fy) → 0 ≤ curY →
      List.Pairwise (fun a b => b + w ≤ a) fingers →
      (e2Body XR L w fingers curY).2 ≤ curY ∧
        0 ≤ (e2Body XR L w fingers curY).2 := by
  intro fingers
  induction fingers with
  | nil =>
    intro curY _ _ h3 _
    exact ⟨le_rfl, h3⟩
  | cons fy rest ih =>
    intro curY h1 h2 h3 h4
    simp only [e2Body]
    rw [List.pairwise_cons] at h4
    have hfy : fy + w ≤ curY := h1 fy (List.mem_cons_self _ _)
    have hfy0 : 0 ≤ fy := h2 fy (List.mem_cons_self _ _)
    have ihh := ih fy (fun z hz => h4.1 z hz)
      (fun z hz => h2 z (List.mem_cons_of_mem _ hz)) hfy0 h4.2
    exact ⟨le_trans ihh.1 (by linarith), ihh.2⟩

theorem e1Body_chain (B L w pitch y0 H : ℚ) (N : ℕ)
    (hB : 0 ≤ B) (hL : 0 ≤ L) (hw : 0 ≤ w) :
    ∀ (fingers : List ℚ) (curY : ℚ),
      0 ≤ curY → curY ≤ H →
      (∀ fy ∈ fingers, curY ≤ fy) →
      List.Pairwise (fun a b => a + w ≤ b) fingers →
      (∀ fy ∈ fingers, fy + w ≤ H) →
      (∀ fy ∈ fingers, ∃ i : ℕ, i < N ∧ i % 2 = 0 ∧ fy = fingY pitch y0 i) →
      ∀ cont : List P2,
        List.Chain (seg1OK B L w pitch y0 H N)
          (B, (e1Body B L w fingers curY).2) cont →
        List.Chain (seg1OK B L w pitch y0 H N) (B, curY)
          ((e1Body B L w fingers curY).1 ++ cont) := by
  intro fingers
  induction fingers with
  | nil =>
    intro curY _ _ _ _ _ _ cont hc
    simpa [e1Body] using hc
  | cons fy rest ih =>
    intro curY h0 hH hge hpw htop hfing cont hc
    rw [List.pairwise_cons] at hpw
    have hfy : curY ≤ fy := hge fy (List.mem_cons_self _ _)
    have hfyH : fy + w ≤ H := htop fy (List.mem_cons_self _ _)
    obtain ⟨i, hiN, hie, hfyi⟩ := hfing fy (List.mem_cons_self _ _)
    simp only [e1Body] at hc ⊢
    have hbus : ∀ yv : ℚ, 0 ≤ yv → yv ≤ H → inRect 0 B 0 H (B, yv) :=
      fun yv hy1 hy2 => ⟨hB, le_refl B, hy1, hy2⟩
    have hfr : ∀ xv yv : ℚ, B ≤ xv → xv ≤ B + L → fy ≤ yv → yv ≤ fy + w →
        inRect B (B + L) (fingY pitch y0 i) (fingY pitch y0 i + w) (xv, yv) := by
      intro xv yv hx1 hx2 hy1 hy2
      refine ⟨hx1, hx2, ?_, ?_⟩
      · rw [← hfyi]; exact hy1
      · rw [← hfyi]; exact hy2
    have htail : List.Chain (seg1OK B L w pitch y0 H N) (B, fy + w)
        ((e1Body B L w rest (fy + w)).1 ++ cont) :=
      ih (fy + w) (by linarith) (by linarith) (fun z hz => hpw.1 z hz) hpw.2
        (fun z hz => htop z (List.mem_cons_of_mem _ hz))
        (fun z hz => hfing z (List.mem_cons_of_mem _ hz)) cont hc
    by_cases hpre : curY < fy
    · rw [if_pos hpre]
      simp only [List.cons_append, List.nil_append, List.append_assoc]
      refine List.Chain.cons ?_ (List.Chain.cons ?_ (List.Chain.cons ?_
        (List.Chain.cons ?_ htail)))
      · exact Or.inl ⟨hbus curY h0 hH, hbus fy (by linarith) (by linarith)⟩
      · exact Or.inr ⟨i, hiN, hie,
          hfr B fy le_rfl (by linarith) le_rfl (by linarith),
          hfr (B + L) fy (by linarith) le_rfl le_rfl (by linarith)⟩
      · exact Or.inr ⟨i, hiN, hie,
          hfr (B + L) fy (by linarith) le_rfl le_rfl (by linarith),
          hfr (B + L) (fy + w) (by linarith) le_rfl (by linarith) le_rfl⟩
      · exact Or.inr ⟨i, hiN, hie,
          hfr (B + L) (fy + w) (by linarith) le_rfl (by linarith) le_rfl,
          hfr B (fy + w) le_rfl (by linarith) (by linarith) le_rfl⟩
    · rw [if_neg hpre]
      have hfyeq : fy = curY := le_antisymm (not_lt.mp hpre) hfy
      simp only [List.cons_append, List.nil_append, List.append_assoc]
      refine List.Chain.cons ?_ (List.Chain.cons ?_ (List.Chain.cons ?_ htail))
      · exact Or.inr ⟨i, hiN, hie,
          hfr B curY le_rfl (by linarith) (le_of_eq hfyeq) (by linarith),
          hfr (B + L) fy (by linarith) le_rfl le_rfl (by linarith)⟩
      · exact Or.inr ⟨i, hiN, hie,
          hfr (B + L) fy (by linarith) le_rfl le_rfl (by linarith),
          hfr (B + L) (fy + w) (by linarith) le_rfl (by linarith) le_rfl⟩
      · exact Or.inr ⟨i, hiN, hie,
          hfr (B + L) (fy + w) (by linarith) le_rfl (by linarith) le_rfl,
          hfr B (fy + w) le_rfl (by linarith) (by linarith) le_rfl⟩

theorem e2Body_chain (XR B L w pitch y0 H : ℚ) (N : ℕ)
    (hB : 0 ≤ B) (hL : 0 ≤ L) (hw : 0 ≤ w) :
    ∀ (fingers : List ℚ) (curY : ℚ),
      0 ≤ curY → curY ≤ H →
      (∀ fy ∈ fingers, fy + w ≤ curY) →
      List.Pairwise (fun a b => b + w ≤ a) fingers →
      (∀ fy ∈ fingers, 0 ≤ fy) →
      (∀ fy ∈ fingers, ∃ i : ℕ, i < N ∧ i % 2 = 1 ∧ fy = fingY pitch y0 i) →
      ∀ cont : List P2,
        List.Chain (seg2OK XR B L w pitch y0 H N)
          (XR, (e2Body XR L w fingers curY).2) cont →
        List.Chain (seg2OK XR B L w pitch y0 H N) (XR, curY)
          ((e2Body XR L w fingers curY).1 ++ cont) := by
  intro fingers
  induction fingers with
  | nil =>
    intro curY _ _ _ _ _ _ cont hc
    simpa [e2Body] using hc
  | cons fy rest ih =>
    intro curY h0 hH hge hpw hnn hfing cont hc
    rw [List.pairwise_cons] at hpw
    have hfy : fy + w ≤ curY := hge fy (List.mem_cons_self _ _)
    have hfy0 : 0 ≤ fy := hnn fy (List.mem_cons_self _ _)
    obtain ⟨i, hiN, hio, hfyi⟩ := hfing fy (List.mem_cons_self _ _)
    simp only [e2Body] at hc ⊢
    have hbus : ∀ yv : ℚ, 0 ≤ yv → yv ≤ H → inRect XR (XR + B) 0 H (XR, yv) :=
      fun yv hy1 hy2 => ⟨le_refl XR, by linarith, hy1, hy2⟩
    have hfr : ∀ xv yv : ℚ, XR - L ≤ xv → xv ≤ XR → fy ≤ yv → yv ≤ fy + w →
        inRect (XR - L) XR (fingY pitch y0 i) (fingY pitch y0 i + w) (xv, yv) := by
      intro xv yv hx1 hx2 hy1 hy2
      refine ⟨hx1, hx2, ?_, ?_⟩
      · rw [← hfyi]; exact hy1
      · rw [← hfyi]; exact hy2
    have htail : List.Chain (seg2OK XR B L w pitch y0 H N) (XR, fy)
        ((e2Body XR L w rest fy).1 ++ cont) :=
      ih fy hfy0 (by linarith) (fun z hz => hpw.1 z hz) hpw.2
        (fun z hz => hnn z (List.mem_cons_of_mem _ hz))
        (fun z hz => hfing z (List.mem_cons_of_mem _ hz)) cont hc
    by_cases hpre : fy + w < curY
    · rw [if_pos hpre]
      simp only [List.cons_append, List.nil_append, List.append_assoc]
      refine List.Chain.cons ?_ (List.Chain.cons ?_ (List.Chain.cons ?_
        (List.Chain.cons ?_ htail)))
      · exact Or.inl ⟨hbus curY h0 hH, hbus (fy + w) (by linarith) (by linarith)⟩
      · exact Or.inr ⟨i, hiN, hio,
          hfr XR (fy + w) (by linarith) le_rfl (by linarith) le_rfl,
          hfr (XR - L) (fy + w) le_rfl (by linarith) (by linarith) le_rfl⟩
      · exact Or.inr ⟨i, hiN, hio,
          hfr (XR - L) (fy + w) le_rfl (by linarith) (by linarith) le_rfl,
          hfr (XR - L) fy le_rfl (by linarith) le_rfl (by linarith)⟩
      · exact Or.inr ⟨i, hiN, hio,
          hfr (XR - L) fy le_rfl (by linarith) le_rfl (by linarith),
          hfr XR fy (by linarith) le_rfl le_rfl (by linarith)⟩
    · rw [if_neg hpre]
      have hfyeq : fy + w = curY := le_antisymm hfy (not_lt.mp hpre)
      simp only [List.cons_append, List.nil_append, List.append_assoc]
      refine List.Chain.cons ?_ (List.Chain.cons ?_ (List.Chain.cons ?_ htail))
      · exact Or.inr ⟨i, hiN, hio,
          hfr XR curY (by linarith) le_rfl (by linarith) (le_of_eq hfyeq.symm),
          hfr (XR - L) (fy + w) le_rfl (by linarith) (by linarith) le_rfl⟩
      · exact Or.inr ⟨i, hiN, hio,
          hfr (XR - L) (fy + w) le_rfl (by linarith) (by linarith) le_rfl,
          hfr (XR - L) fy le_rfl (by linarith) le_rfl (by linarith)⟩
      · exact Or.inr ⟨i, hiN, hio,
          hfr (XR - L) fy le_rfl (by linarith) le_rfl (by linarith),
          hfr XR fy (by linarith) le_rfl le_rfl (by linarith)⟩

theorem e1Pts_in_S1 (B L w pitch y0 H : ℚ) (N : ℕ)
    (hB : 0 ≤ B) (hL : 0 ≤ L) (hw : 0 ≤ w) (hH : 0 ≤ H)
    (fingers : List ℚ)
    (hge : ∀ fy ∈ fingers, (0 : ℚ) ≤ fy)
    (hpw : List.Pairwise (fun a b => a + w ≤ b) fingers)
    (htop : ∀ fy ∈ fingers, fy + w ≤ H)
    (hfing : ∀ fy ∈ fingers, ∃ i : ℕ, i < N ∧ i % 2 = 0 ∧ fy = fingY pitch y0 i)
    (r : P2) (hr : onLoop (e1Pts B L w H fingers) r) :
    inS1 B L w pitch y0 H N r := by
  obtain ⟨sg, hsg, hseg⟩ := hr
  have hfinB := e1Body_final B L w H hw fingers 0 hge htop hH hpw
  have hcont : List.Chain (seg1OK B L w pitch y0 H N)
      (B, (e1Body B L w fingers 0).2)
      ((if (e1Body B L w fingers 0).2 < H then [((B, H) : P2)] else []) ++
        [(((0 : ℚ), H) : P2), (((0 : ℚ), (0 : ℚ)) : P2)]) := by
    have hrfin : inRect 0 B 0 H (B, (e1Body B L w fingers 0).2) :=
      ⟨hB, le_rfl, hfinB.1, hfinB.2⟩
    have hrBH : inRect 0 B 0 H ((B, H) : P2) := ⟨hB, le_rfl, hH, le_rfl⟩
    have hr0H : inRect 0 B 0 H (((0 : ℚ), H) : P2) := ⟨le_rfl, hB, hH, le_rfl⟩
    have hr00 : inRect 0 B 0 H (((0 : ℚ), (0 : ℚ)) : P2) := ⟨le_rfl, hB, le_rfl, hH⟩
    by_cases hfH : (e1Body B L w fingers 0).2 < H
    · rw [if_pos hfH]
      exact List.Chain.cons (Or.inl ⟨hrfin, hrBH⟩)
        (List.Chain.cons (Or.inl ⟨hrBH, hr0H⟩)
          (List.Chain.cons (Or.inl ⟨hr0H, hr00⟩) List.Chain.nil))
    · rw [if_neg hfH]
      exact List.Chain.cons (Or.inl ⟨hrfin, hr0H⟩)
        (List.Chain.cons (Or.inl ⟨hr0H, hr00⟩) List.Chain.nil)
  have hbody := e1Body_chain B L w pitch y0 H N hB hL hw fingers 0 le_rfl hH
    (fun z hz => hge z hz) hpw htop hfing _ hcont
  have hchain : List.Chain (seg1OK B L w pitch y0 H N) (((0 : ℚ), (0 : ℚ)) : P2)
      ((((B, (0 : ℚ)) : P2) ::
        (((e1Body B L w fingers 0).1 ++
          (if (e1Body B L w fingers 0).2 < H then [((B, H) : P2)] else [])) ++
          [(((0 : ℚ), H) : P2)])) ++ [(((0 : ℚ), (0 : ℚ)) : P2)]) := by
    simp only [List.cons_append, List.nil_append, List.append_assoc]
    refine List.Chain.cons (Or.inl ⟨⟨le_rfl, hB, le_rfl, hH⟩,
      ⟨hB, le_rfl, le_rfl, hH⟩⟩) ?_
    simpa only [List.append_assoc, List.cons_append, List.nil_append] using hbody
  exact inS1_of_seg1OK
    (chain_closedSegs (((0 : ℚ), (0 : ℚ)) : P2) _ hchain sg.1 sg.2 hsg) hseg

theorem e2Pts_in_S2 (XR B L w pitch y0 H : ℚ) (N : ℕ)
    (hB : 0 ≤ B) (hL : 0 ≤ L) (hw : 0 ≤ w) (hH : 0 ≤ H)
    (fingers : List ℚ)
    (hge : ∀ fy ∈ fingers, fy + w ≤ H)
    (hpw : List.Pairwise (fun a b => b + w ≤ a) fingers)
    (hnn : ∀ fy ∈ fingers, (0 : ℚ) ≤ fy)
    (hfing : ∀ fy ∈ fingers, ∃ i : ℕ, i < N ∧ i % 2 = 1 ∧ fy = fingY pitch y0 i)
    (r : P2) (hr : onLoop (e2Pts XR B L w H fingers) r) :
    inS2 XR B L w pitch y0 H N r := by
  obtain ⟨sg, hsg, hseg⟩ := hr
  have hfinB := e2Body_final XR L w hw fingers H hge hnn hH hpw
  have hcont : List.Chain (seg2OK XR B L w pitch y0 H N)
      (XR, (e2Body XR L w fingers H).2)
      ((if 0 < (e2Body XR L w fingers H).2 then [((XR, (0 : ℚ)) : P2)] else []) ++
        [((XR + B, (0 : ℚ)) : P2)]) := by
    have hrfin : inRect XR (XR + B) 0 H (XR, (e2Body XR L w fingers H).2) :=
      ⟨le_rfl, (show XR ≤ XR + B by linarith), hfinB.2, hfinB.1⟩
    have hrX0 : inRect XR (XR + B) 0 H ((XR, (0 : ℚ)) : P2) :=
      ⟨le_rfl, (show XR ≤ XR + B by linarith), le_rfl, hH⟩
    have hrXB0 : inRect XR (XR + B) 0 H ((XR + B, (0 : ℚ)) : P2) :=
      ⟨(show XR ≤ XR + B by linarith), le_rfl, le_rfl, hH⟩
    by_cases hf0 : 0 < (e2Body XR L w fingers H).2
    · rw [if_pos hf0]
      exact List.Chain.cons (Or.inl ⟨hrfin, hrX0⟩)
        (List.Chain.cons (Or.inl ⟨hrX0, hrXB0⟩) List.Chain.nil)
    · rw [if_neg hf0]
      exact List.Chain.cons (Or.inl ⟨hrfin, hrXB0⟩) List.Chain.nil
  have hbody := e2Body_chain XR B L w pitch y0 H N hB hL hw fingers H hH le_rfl
    hge hpw hnn hfing _ hcont
  have hchain : List.Chain (seg2OK XR B L w pitch y0 H N) ((XR + B, (0 : ℚ)) : P2)
      ((((XR + B, H) : P2) :: ((XR, H) : P2) ::
        ((e2Body XR L w fingers H).1 ++
          (if 0 < (e2Body XR L w fingers H).2 then [((XR, (0 : ℚ)) : P2)] else []))) ++
        [((XR + B, (0 : ℚ)) : P2)]) := by
    simp only [List.cons_append, List.nil_append, List.append_assoc]
    refine List.Chain.cons (Or.inl ⟨⟨(show XR ≤ XR + B by linarith), le_rfl, le_rfl, hH⟩,
      ⟨(show XR ≤ XR + B by linarith), le_rfl, hH, le_rfl⟩⟩) ?_
    refine List.Chain.cons (Or.inl ⟨⟨(show XR ≤ XR + B by linarith), le_rfl, hH, le_rfl⟩,
      ⟨le_rfl, (show XR ≤ XR + B by linarith), hH, le_rfl⟩⟩) ?_
    simpa only [List.append_assoc, List.cons_append, List.nil_append] using hbody
  exact inS2_of_seg2OK
    (chain_closedSegs ((XR + B, (0 : ℚ)) : P2) _ hchain sg.1 sg.2 hsg) hseg

theorem pySortedDesc_eq_reverse (l : List ℚ) (hl : List.Sorted (· ≤ ·) l) :
    pySortedDesc l = l.reverse := by
  haveI hanti : IsAntisymm ℚ (fun a b => b ≤ a) :=
    ⟨fun a b h1 h2 => le_antisymm h2 h1⟩
  haveI htot : IsTotal ℚ (fun a b => b ≤ a) := ⟨fun a b => le_total b a⟩
  haveI htrans : IsTrans ℚ (fun a b => b ≤ a) :=
    ⟨fun a b c h1 h2 => le_trans h2 h1⟩
  have hperm : List.Perm (pySortedDesc l) l.reverse :=
    (List.perm_insertionSort _ l).trans (List.reverse_perm l).symm
  have hs1 : List.Sorted (fun a b => b ≤ a) (pySortedDesc l) :=
    List.sorted_insertionSort _ l
  have hs2 : List.Sorted (fun a b => b ≤ a) l.reverse := by
    rw [List.Sorted, List.pairwise_reverse]
    exact hl
  exact List.eq_of_perm_of_sorted hperm hs1 hs2

theorem S1_S2_sep (B L w g pitch y0 H XR : ℚ) (N : ℕ)
    (hg : 0 < g) (hw : 0 < w) (hL : 0 ≤ L)
    (hpitch : pitch = w + g) (hXR : XR = B + L + g)
    (p q : P2) (hp : inS1 B L w pitch y0 H N p)
    (hq : inS2 XR B L w pitch y0 H N q) :
    g ^ 2 ≤ (p.1 - q.1) ^ 2 + (p.2 - q.2) ^ 2 := by
  subst hpitch
  subst hXR
  rcases hp with ⟨hp1, hp2, hp3, hp4⟩ | ⟨i, hiN, hie, hpx1, hpx2, hpy1, hpy2⟩
  · rcases hq with ⟨hq1, hq2, hq3, hq4⟩ | ⟨j, hjN, hjo, hqx1, hqx2, hqy1, hqy2⟩
    · have hd : g ≤ q.1 - p.1 := by linarith
      nlinarith [sq_nonneg (p.2 - q.2),
        mul_nonneg (show (0:ℚ) ≤ q.1 - p.1 - g by linarith)
          (show (0:ℚ) ≤ q.1 - p.1 + g by linarith)]
    · have hd : g ≤ q.1 - p.1 := by linarith
      nlinarith [sq_nonneg (p.2 - q.2),
        mul_nonneg (show (0:ℚ) ≤ q.1 - p.1 - g by linarith)
          (show (0:ℚ) ≤ q.1 - p.1 + g by linarith)]
  · rcases hq with ⟨hq1, hq2, hq3, hq4⟩ | ⟨j, hjN, hjo, hqx1, hqx2, hqy1, hqy2⟩
    · have hd : g ≤ q.1 - p.1 := by linarith
      nlinarith [sq_nonneg (p.2 - q.2),
        mul_nonneg (show (0:ℚ) ≤ q.1 - p.1 - g by linarith)
          (show (0:ℚ) ≤ q.1 - p.1 + g by linarith)]
    · have hij : i ≠ j := by omega
      unfold fingY at hpy1 hpy2 hqy1 hqy2
      rcases Nat.lt_or_ge i j with hlt | hge'
      · have h1 : (i : ℚ) + 1 ≤ (j : ℚ) := by exact_mod_cast hlt
        have hd : g ≤ q.2 - p.2 := by
          nlinarith [mul_le_mul_of_nonneg_right
            (show (1:ℚ) ≤ (j:ℚ) - (i:ℚ) by linarith)
            (show (0:ℚ) ≤ w + g by linarith)]
        nlinarith [sq_nonneg (p.1 - q.1),
          mul_nonneg (show (0:ℚ) ≤ q.2 - p.2 - g by linarith)
            (show (0:ℚ) ≤ q.2 - p.2 + g by linarith)]
      · have hlt' : j < i := lt_of_le_of_ne hge' (Ne.symm hij)
        have h1 : (j : ℚ) + 1 ≤ (i : ℚ) := by exact_mod_cast hlt'
        have hd : g ≤ p.2 - q.2 := by
          nlinarith [mul_le_mul_of_nonneg_right
            (show (1:ℚ) ≤ (i:ℚ) - (j:ℚ) by linarith)
            (show (0:ℚ) ≤ w + g by linarith)]
        nlinarith [sq_nonneg (p.1 - q.1),
          mul_nonneg (show (0:ℚ) ≤ p.2 - q.2 - g by linarith)
            (show (0:ℚ) ≤ p.2 - q.2 + g by linarith)]

theorem mapped_mem_fing (pitch y0 : ℚ) (N : ℕ) (cond : ℕ → Bool) :
    ∀ fy ∈ ((List.range N).filter cond).map
        (fun (i : ℕ) => y0 + (i : ℚ) * pitch),
      ∃ i : ℕ, i < N ∧ cond i = true ∧ fy = fingY pitch y0 i := by
  intro fy hfy
  rw [List.mem_map] at hfy
  obtain ⟨i, hi, hfyeq⟩ := hfy
  rw [List.mem_filter, List.mem_range] at hi
  exact ⟨i, hi.1, hi.2, hfyeq.symm⟩

theorem mapped_pairwise_gap (pitch y0 w : ℚ) (N : ℕ) (cond : ℕ → Bool)
    (hwp : w ≤ pitch) (hp0 : 0 ≤ pitch) :
    List.Pairwise (fun a b => a + w ≤ b)
      (((List.range N).filter cond).map
        (fun (i : ℕ) => y0 + (i : ℚ) * pitch)) := by
  rw [List.pairwise_map]
  refine ((List.pairwise_lt_range N).filter cond).imp ?_
  intro a b hab
  have h1 : (a : ℚ) + 1 ≤ (b : ℚ) := by exact_mod_cast hab
  nlinarith [mul_le_mul_of_nonneg_right
    (show (1 : ℚ) ≤ (b : ℚ) - (a : ℚ) by linarith) hp0]

theorem mapped_nonneg (pitch y0 : ℚ) (N : ℕ) (cond : ℕ → Bool)
    (hp0 : 0 ≤ pitch) (hy0 : 0 ≤ y0) :
    ∀ fy ∈ ((List.range N).filter cond).map
        (fun (i : ℕ) => y0 + (i : ℚ) * pitch),
      (0 : ℚ) ≤ fy := by
  intro fy hfy
  rw [List.mem_map] at hfy
  obtain ⟨i, _, hfyeq⟩ := hfy
  rw [← hfyeq]
  have := mul_nonneg (show (0 : ℚ) ≤ (i : ℚ) from Nat.cast_nonneg i) hp0
  linarith

theorem mapped_top (pitch y0 w g mt : ℚ) (N : ℕ) (cond : ℕ → Bool)
    (hpitch : pitch = w + g) (hmt : 0 ≤ mt) (hp0 : 0 ≤ pitch) :
    ∀ fy ∈ ((List.range N).filter cond).map
        (fun (i : ℕ) => y0 + (i : ℚ) * pitch),
      fy + w ≤ y0 + ((N : ℚ) * pitch - g) + mt := by
  intro fy hfy
  rw [List.mem_map] at hfy
  obtain ⟨i, hi, hfyeq⟩ := hfy
  rw [List.mem_filter, List.mem_range] at hi
  rw [← hfyeq]
  have h1 : (i : ℚ) + 1 ≤ (N : ℚ) := by exact_mod_cast hi.1
  nlinarith [mul_le_mul_of_nonneg_right
    (show (i : ℚ) ≤ (N : ℚ) - 1 by linarith) hp0]

/-- **C6.** For all valid comb inputs (positive `finger_width`, `gap`,
`finger_length`, `bus_width`, non-negative margins, `finger_count ≥ 1`),
the two electrode outlines returned by `build_geometry`, taken as closed
loops including the implicit closing edge, never touch: every point of the
E1 boundary is at Euclidean distance at least `gap` from every point of
the E2 boundary. -/
theorem comb_electrodes_separated (w g L B mt mb : ℚ) (N : ℕ)
    (hw : 0 < w) (hg : 0 < g) (hL : 0 < L) (hB : 0 < B)
    (hmt : 0 ≤ mt) (hmb : 0 ≤ mb) (hN : 1 ≤ N)
    (e1 e2 : List P2)
    (hpolys : (build_geometry w g L N B mt mb).1 = [("E1", e1), ("E2", e2)])
    (p q : P2) (hp : onLoop e1 p) (hq : onLoop e2 q) :
    ((g : ℚ) : ℝ) ≤
      Real.sqrt ((((p.1 : ℚ) : ℝ) - ((q.1 : ℚ) : ℝ)) ^ 2 +
        (((p.2 : ℚ) : ℝ) - ((q.2 : ℚ) : ℝ)) ^ 2) := by
  have hNq : (1 : ℚ) ≤ (N : ℚ) := by exact_mod_cast hN
  have hp0 : (0 : ℚ) ≤ w + g := by linarith
  simp only [build_geometry, List.cons.injEq, Prod.mk.injEq, true_and,
    and_true] at hpolys
  obtain ⟨he1, he2⟩ := hpolys
  subst he1
  subst he2
  rw [show e1FingersOf (w + g) mb N =
      ((List.range N).filter (fun i => i % 2 == 0)).map
        (fun (i : ℕ) => mb + (i : ℚ) * (w + g)) from
    (fy_mono_sorted (w + g) mb hp0 _
      ((List.pairwise_lt_range N).filter
        (fun i => i % 2 == 0))).insertionSort_eq] at hp
  have hsort2 := fy_mono_sorted (w + g) mb hp0 _
    ((List.pairwise_lt_range N).filter (fun i => i % 2 != 0))
  rw [show e2FingersOf (w + g) mb N =
      ((List.range N).filter (fun i => i % 2 != 0)).map
        (fun (i : ℕ) => mb + (i : ℚ) * (w + g)) from
    hsort2.insertionSort_eq] at hq
  rw [pySortedDesc_eq_reverse _ hsort2] at hq
  have hH0 : (0 : ℚ) ≤ mb + ((N : ℚ) * (w + g) - g) + mt := by
    nlinarith [mul_le_mul_of_nonneg_right hNq hp0]
  have hp' : inS1 B L w (w + g) mb (mb + ((N : ℚ) * (w + g) - g) + mt) N p := by
    refine e1Pts_in_S1 B L w (w + g) mb _ N hB.le hL.le hw.le hH0 _
      (mapped_nonneg (w + g) mb N _ hp0 hmb)
      (mapped_pairwise_gap (w + g) mb w N _ (by linarith) hp0)
      (mapped_top (w + g) mb w g mt N _ rfl hmt hp0) ?_ p hp
    intro fy hfy
    obtain ⟨i, hiN, hcond, hfyeq⟩ := mapped_mem_fing (w + g) mb N _ fy hfy
    exact ⟨i, hiN, by simpa using hcond, hfyeq⟩
  have hq' : inS2 (B + L + g) B L w (w + g) mb
      (mb + ((N : ℚ) * (w + g) - g) + mt) N q := by
    refine e2Pts_in_S2 (B + L + g) B L w (w + g) mb _ N hB.le hL.le hw.le hH0 _
      ?_ ?_ ?_ ?_ q hq
    · intro fy hfy
      rw [List.mem_reverse] at hfy
      exact mapped_top (w + g) mb w g mt N _ rfl hmt hp0 fy hfy
    · rw [List.pairwise_reverse]
      exact mapped_pairwise_gap (w + g) mb w N _ (by linarith) hp0
    · intro fy hfy
      rw [List.mem_reverse] at hfy
      exact mapped_nonneg (w + g) mb N _ hp0 hmb fy hfy
    · intro fy hfy
      rw [List.mem_reverse] at hfy
      obtain ⟨i, hiN, hcond, hfyeq⟩ := mapped_mem_fing (w + g) mb N _ fy hfy
      refine ⟨i, hiN, ?_, hfyeq⟩
      have : ¬ i % 2 = 0 := by simpa using hcond
      omega
  have hsep := S1_S2_sep B L w g (w + g) mb
    (mb + ((N : ℚ) * (w + g) - g) + mt) (B + L + g) N hg hw hL.le rfl rfl
    p q hp' hq'
  have hsqR : (((g : ℚ) : ℝ)) ^ 2 ≤
      (((p.1 : ℚ) : ℝ) - ((q.1 : ℚ) : ℝ)) ^ 2 +
        (((p.2 : ℚ) : ℝ) - ((q.2 : ℚ) : ℝ)) ^ 2 := by
    exact_mod_cast hsep
  have hg0 : (0 : ℝ) ≤ ((g : ℚ) : ℝ) := by exact_mod_cast hg.le
  calc ((g : ℚ) : ℝ) = Real.sqrt (((g : ℚ) : ℝ) ^ 2) := (Real.sqrt_sq hg0).symm
    _ ≤ _ := Real.sqrt_le_sqrt hsqR

/-- Witness for C6: at `w = g = L = B = 1`, zero margins, `N = 1`, the
point `(0,0)` of the E1 loop and the point `(4,0)` of the E2 loop are at
distance `4 ≥ g = 1`. -/
theorem comb_electrodes_separated_witness :
    ((1 : ℚ) : ℝ) ≤
      Real.sqrt ((((0 : ℚ) : ℝ) - ((4 : ℚ) : ℝ)) ^ 2 +
        (((0 : ℚ) : ℝ) - ((0 : ℚ) : ℝ)) ^ 2) :=
  comb_electrodes_separated 1 1 1 1 0 0 1 (by norm_num) (by norm_num)
    (by norm_num) (by norm_num) (by norm_num) (by norm_num) (by norm_num)
    [(0, 0), (1, 0), (2, 0), (2, 1), (1, 1), (0, 1)]
    [(4, 0), (4, 1), (3, 1), (3, 0)]
    (by norm_num [build_geometry, e1Pts, e2Pts, e1Body, e2Body, e1FingersOf,
      e2FingersOf, pySorted, pySortedDesc, List.insertionSort,
      List.orderedInsert, List.range_succ])
    ((0 : ℚ), (0 : ℚ)) ((4 : ℚ), (0 : ℚ))
    ⟨(((0 : ℚ), (0 : ℚ)), ((1 : ℚ), (0 : ℚ))), by decide,
      0, le_rfl, by norm_num, by norm_num, by norm_num⟩
    ⟨(((4 : ℚ), (0 : ℚ)), ((4 : ℚ), (1 : ℚ))), by decide,
      0, le_rfl, by norm_num, by norm_num, by norm_num⟩
